import Mathlib

/-!
Verification of the Zephyr Rust bindings' static kernel-object
initialization (`zephyr/src/object.rs`) and the dining-philosophers
sample (`samples/philosophers/src/lib.rs`).

The embedding keeps the source structure: the one-shot initialization
state machine is modelled both as a sequential function that records the
writes to the atomic state word and the invocations of the construction
routine, and as a small-step transition system over any number of
concurrent callers.  The philosophers sample is modelled by its fork
assignment, its delay arithmetic (64-bit wrapping), its per-iteration
action trace, and a transition system over the six threads with the
fork-synchronization capability realized by per-fork binary semaphores.
-/

namespace ZephyrObject

/-- `KOBJ_UNINITIALIZED` from `object.rs`: state of an uninitialized
kernel object; must be zero so zero-filled memory is a valid slot. -/
def KOBJ_UNINITIALIZED : Nat := 0

/-- `KOBJ_INITING` from `object.rs`: a kernel object being initialized. -/
def KOBJ_INITING : Nat := 1

/-- `KOBJ_INITIALIZED` from `object.rs`: a kernel object whose
initialization has completed. -/
def KOBJ_INITIALIZED : Nat := 2

/-- An observable effect of `init_once` on the slot: a write of a value
to the atomic state word, or an invocation of the kind-specific
construction routine `get_wrapped` with its arguments. -/
inductive KEvent (I : Type) where
  | storeWord (v : Nat)
  | runGetWrapped (args : I)

/-- Recognizer for construction-routine events. -/
def KEvent.isGWRun {I : Type} : KEvent I → Bool
  | KEvent.runGetWrapped _ => true
  | _ => false

/-- `AtomicUsize::compare_exchange(current, new, ..)` on a word holding
`word`: returns whether the exchange succeeded together with the new
value of the word. -/
def compare_exchange (word current new : Nat) : Bool × Nat :=
  if word = current then (true, new) else (false, word)

/-- `StaticKernelObject::init_once` from `object.rs`, with the
construction routine `Wrapped::get_wrapped` abstracted as the function
`gw` on the initializer arguments.  Input is the current value of the
`init` atomic; output is the returned option, the final value of the
`init` atomic, and the ordered list of effects performed on the slot:

    if let Err(_) = self.init.compare_exchange(KOBJ_UNINITIALIZED,
        KOBJ_INITING, ..) { return None; }
    let result = self.get_wrapped(args);
    self.init.store(KOBJ_INITIALIZED, ..);
    Some(result)
-/
def init_once {I T : Type} (gw : I → T) (word : Nat) (args : I) :
    Option T × Nat × List (KEvent I) :=
  match compare_exchange word KOBJ_UNINITIALIZED KOBJ_INITING with
  | (false, w) => (none, w, [])
  | (true, w) =>
      let result := gw args
      (some result, KOBJ_INITIALIZED,
        [KEvent.storeWord w, KEvent.runGetWrapped args,
         KEvent.storeWord KOBJ_INITIALIZED])

/-- The `init` word of `StaticKernelObject::new()` (and of the
zero-filled static memory the `kobj_define!` declarations produce). -/
def new_init_word : Nat := KOBJ_UNINITIALIZED

/-- Position of one caller of `init_once` in its execution: not yet at
the compare-exchange, between a successful compare-exchange and the
final store, returned `Some`, or returned `None`. -/
inductive Phase where
  | start
  | mid
  | doneSome
  | doneNone
deriving DecidableEq

/-- Global state of one `StaticKernelObject` slot being raced on by `k`
callers of `init_once`: the value of the `init` atomic plus each
caller's position. -/
structure SysState (k : Nat) where
  word : Nat
  phase : Fin k → Phase

/-- Initial state: the slot is zero-filled (`init` word is
`KOBJ_UNINITIALIZED`) and no caller has acted. -/
def initState (k : Nat) : SysState k :=
  { word := KOBJ_UNINITIALIZED, phase := fun _ => Phase.start }

/-- Interleaving semantics of `k` concurrent calls of `init_once` on one
slot.  Each caller performs its compare-exchange atomically (succeeding
exactly when the word is `KOBJ_UNINITIALIZED`, failing and returning
`None` otherwise), and a successful caller later performs
`get_wrapped` and the store of `KOBJ_INITIALIZED`, returning `Some`. -/
inductive Step {k : Nat} : SysState k → SysState k → Prop where
  | casOk {s : SysState k} (i : Fin k) (hp : s.phase i = Phase.start)
      (hw : s.word = KOBJ_UNINITIALIZED) :
      Step s ⟨KOBJ_INITING, Function.update s.phase i Phase.mid⟩
  | casFail {s : SysState k} (i : Fin k) (hp : s.phase i = Phase.start)
      (hw : s.word ≠ KOBJ_UNINITIALIZED) :
      Step s ⟨s.word, Function.update s.phase i Phase.doneNone⟩
  | storeDone {s : SysState k} (i : Fin k) (hp : s.phase i = Phase.mid) :
      Step s ⟨KOBJ_INITIALIZED, Function.update s.phase i Phase.doneSome⟩

/-- Reachability in the concurrent model. -/
def Reach {k : Nat} : SysState k → SysState k → Prop :=
  Relation.ReflTransGen Step

/-- The race invariant: either the word is still `KOBJ_UNINITIALIZED`
and nobody has moved past `start`, or there is a single winner holding
the slot (word `KOBJ_INITING`, winner at `mid`) or having finished
(word `KOBJ_INITIALIZED`, winner at `doneSome`), and everyone else has
either not acted or returned `None`. -/
def RaceInv {k : Nat} (s : SysState k) : Prop :=
  (s.word = KOBJ_UNINITIALIZED ∧ ∀ i, s.phase i = Phase.start)
  ∨ (s.word = KOBJ_INITING ∧ ∃ w, s.phase w = Phase.mid ∧
      ∀ i, i ≠ w → s.phase i = Phase.start ∨ s.phase i = Phase.doneNone)
  ∨ (s.word = KOBJ_INITIALIZED ∧ ∃ w, s.phase w = Phase.doneSome ∧
      ∀ i, i ≠ w → s.phase i = Phase.start ∨ s.phase i = Phase.doneNone)

end ZephyrObject

namespace Philosophers

/-- `NUM_PHIL` from `samples/philosophers/src/lib.rs`: how many
philosophers; there are as many forks. -/
def NUM_PHIL : Nat := 6

/-- The fork pair computed at the top of `phil_thread` for philosopher
`n`:

    let forks = if n == NUM_PHIL - 1 {
        // Per Dijkstra, the last phyilosopher needs to reverse forks.
        (0, n)
    } else {
        (n, n+1)
    };
-/
def philForks (n : Nat) : Nat × Nat :=
  if n = NUM_PHIL - 1 then (0, n) else (n, n + 1)

/-- Modulus of `usize` (and `Tick`) arithmetic on the modelled 64-bit
target. -/
def USIZE_MOD : Nat := 2 ^ 64

/-- `get_random_delay` from the sample, as the millisecond count handed
to `Duration::millis_at_least`, with wrapping unsigned 64-bit
arithmetic.  `uptime` is the `i64` returned by `uptime_get()`:

    let tick = (uptime_get() & (usize::MAX as i64)) as usize;
    let delay = (tick / 100 * (id + 1)) & 0x1f;
    Duration::millis_at_least(((delay + 1) * period) as Tick)
-/
def get_random_delay_ms (id period : Nat) (uptime : Int) : Nat :=
  let tick : Nat := (uptime % (USIZE_MOD : Int)).toNat
  let delay : Nat := (tick / 100 * (id + 1)) % USIZE_MOD &&& 0x1f
  ((delay + 1) * period) % USIZE_MOD

/-- One observable action of a philosopher thread: taking a fork,
releasing a fork, or sleeping for a number of milliseconds. -/
inductive PhilAction where
  | take (index : Nat)
  | release (index : Nat)
  | sleepFor (ms : Nat)
deriving DecidableEq

/-- One iteration of the `phil_thread` loop body, in program order.
`u1` and `u2` are the uptime readings of the two `get_random_delay(n,
25)` calls of the iteration:

    syncer.take(forks.0);
    syncer.take(forks.1);
    let delay = get_random_delay(n, 25);
    sleep(delay);
    syncer.release(forks.1);
    syncer.release(forks.0);
    let delay = get_random_delay(n, 25);
    sleep(delay);
-/
def philLoopBody (n : Nat) (u1 u2 : Int) : List PhilAction :=
  [PhilAction.take (philForks n).1,
   PhilAction.take (philForks n).2,
   PhilAction.sleepFor (get_random_delay_ms n 25 u1),
   PhilAction.release (philForks n).2,
   PhilAction.release (philForks n).1,
   PhilAction.sleepFor (get_random_delay_ms n 25 u2)]

/-- The actions performed by the first `k` iterations of the infinite
`loop` in `phil_thread` (the loop has no `break`: every iteration is
followed by another). `ups` gives each iteration its two uptime
readings. -/
def philActs (n : Nat) (ups : Nat → Int × Int) : Nat → List PhilAction
  | 0 => []
  | k + 1 => philActs n ups k ++ philLoopBody n (ups k).1 (ups k).2

/-- First fork taken by philosopher `n` (`forks.0`). -/
def firstFork (n : Fin NUM_PHIL) : Nat := (philForks n.val).1

/-- Second fork taken by philosopher `n` (`forks.1`). -/
def secondFork (n : Fin NUM_PHIL) : Nat := (philForks n.val).2

/-- Phase of a philosopher thread inside its loop: `hungry` (before
`take(forks.0)`), `waitSecond` (holding the first fork, before
`take(forks.1)`), `eating` (holding both forks, sleeping), `putFirst`
(released the second fork, still holding the first), `thinking`
(holding nothing, sleeping before the next iteration). -/
inductive PPhase where
  | hungry
  | waitSecond
  | eating
  | putFirst
  | thinking
deriving DecidableEq

/-- Which fork indices philosopher `n` holds in phase `ph`, following
the loop body of `phil_thread`. -/
def holdsFork (n : Fin NUM_PHIL) (ph : PPhase) (f : Nat) : Prop :=
  match ph with
  | PPhase.hungry => False
  | PPhase.waitSecond => f = firstFork n
  | PPhase.eating => f = firstFork n ∨ f = secondFork n
  | PPhase.putFirst => f = firstFork n
  | PPhase.thinking => False

/-- Global state of the dining table: the holder (if any) of each fork
semaphore, each philosopher's phase, and how many full loop iterations
each philosopher has completed. -/
structure TableState where
  forks : Nat → Option (Fin NUM_PHIL)
  phase : Fin NUM_PHIL → PPhase
  eaten : Fin NUM_PHIL → Nat

/-- The table before anybody acted: all six threads at the top of their
loop, all forks available, nothing eaten. -/
def initTable : TableState :=
  { forks := fun _ => none
    phase := fun _ => PPhase.hungry
    eaten := fun _ => 0 }

/-- Modelled from the spec: the `ForkSync` implementation behind
`syncer` (`semsync.rs`, not part of the sources at hand) realizes
`take`/`release` as acquire/release of one binary kernel semaphore per
fork index (section 4.3 of the design): `take(i)` blocks until fork `i`
is available and then holds it, `release(i)` makes fork `i` available
again.  `PStep` interleaves the six `phil_thread` loops over that
capability: a `take` completes only when the fork is free, sleeps are
finite, and the loop never exits. -/
inductive PStep : TableState → TableState → Prop where
  | takeFirst {s : TableState} (n : Fin NUM_PHIL)
      (hp : s.phase n = PPhase.hungry) (hf : s.forks (firstFork n) = none) :
      PStep s ⟨Function.update s.forks (firstFork n) (some n),
               Function.update s.phase n PPhase.waitSecond, s.eaten⟩
  | takeSecond {s : TableState} (n : Fin NUM_PHIL)
      (hp : s.phase n = PPhase.waitSecond) (hf : s.forks (secondFork n) = none) :
      PStep s ⟨Function.update s.forks (secondFork n) (some n),
               Function.update s.phase n PPhase.eating, s.eaten⟩
  | putSecond {s : TableState} (n : Fin NUM_PHIL)
      (hp : s.phase n = PPhase.eating) :
      PStep s ⟨Function.update s.forks (secondFork n) none,
               Function.update s.phase n PPhase.putFirst, s.eaten⟩
  | putFirstDown {s : TableState} (n : Fin NUM_PHIL)
      (hp : s.phase n = PPhase.putFirst) :
      PStep s ⟨Function.update s.forks (firstFork n) none,
               Function.update s.phase n PPhase.thinking,
               Function.update s.eaten n (s.eaten n + 1)⟩
  | wake {s : TableState} (n : Fin NUM_PHIL)
      (hp : s.phase n = PPhase.thinking) :
      PStep s ⟨s.forks, Function.update s.phase n PPhase.hungry, s.eaten⟩

/-- Reachability between table states. -/
def PReach : TableState → TableState → Prop := Relation.ReflTransGen PStep

/-- The semaphore state agrees with phase-implied fork ownership: fork
`f` is unavailable with holder `m` exactly when `m`'s position in its
loop says it holds `f`. -/
def TableInv (s : TableState) : Prop :=
  ∀ (f : Nat) (m : Fin NUM_PHIL), s.forks f = some m ↔ holdsFork m (s.phase m) f

/-- Steps left for a philosopher to put its first fork back down. -/
def phaseWeight : PPhase → Nat
  | PPhase.waitSecond => 3
  | PPhase.eating => 2
  | PPhase.putFirst => 1
  | PPhase.hungry => 0
  | PPhase.thinking => 0

/-- Total distance of the table from a fork-free configuration. -/
def tableWeight (s : TableState) : Nat :=
  Finset.sum Finset.univ fun m : Fin NUM_PHIL => phaseWeight (s.phase m)

end Philosophers

namespace ZephyrObject

theorem raceInv_init (k : Nat) : RaceInv (initState k) :=
  Or.inl ⟨rfl, fun _ => rfl⟩

theorem raceInv_step {k : Nat} {s s' : SysState k} (h : Step s s')
    (hinv : RaceInv s) : RaceInv s' := by
  cases h with
  | casOk i hp hw =>
      rcases hinv with ⟨_, hall⟩ | ⟨hword, _⟩ | ⟨hword, _⟩
      · refine Or.inr (Or.inl ⟨rfl, i, ?_, ?_⟩)
        · simp [Function.update]
        · intro j hj
          left
          dsimp only
          rw [Function.update_noteq hj]
          exact hall j
      · exact absurd (hw.symm.trans hword) (by simp [KOBJ_UNINITIALIZED, KOBJ_INITING])
      · exact absurd (hw.symm.trans hword) (by simp [KOBJ_UNINITIALIZED, KOBJ_INITIALIZED])
  | casFail i hp hw =>
      rcases hinv with ⟨hword, _⟩ | ⟨hword, w, hwmid, hrest⟩ | ⟨hword, w, hwsome, hrest⟩
      · exact absurd hword hw
      · refine Or.inr (Or.inl ⟨hword, w, ?_, ?_⟩)
        · have hiw : i ≠ w := fun he => by
            rw [he] at hp; rw [hp] at hwmid; exact Phase.noConfusion hwmid
          dsimp only
          rw [Function.update_noteq (Ne.symm hiw)]
          exact hwmid
        · intro j hj
          by_cases hji : j = i
          · subst hji; right; simp [Function.update]
          · dsimp only; rw [Function.update_noteq hji]; exact hrest j hj
      · refine Or.inr (Or.inr ⟨hword, w, ?_, ?_⟩)
        · have hiw : i ≠ w := fun he => by
            rw [he] at hp; rw [hp] at hwsome; exact Phase.noConfusion hwsome
          dsimp only
          rw [Function.update_noteq (Ne.symm hiw)]
          exact hwsome
        · intro j hj
          by_cases hji : j = i
          · subst hji; right; simp [Function.update]
          · dsimp only; rw [Function.update_noteq hji]; exact hrest j hj
  | storeDone i hp =>
      rcases hinv with ⟨_, hall⟩ | ⟨_, w, hwmid, hrest⟩ | ⟨_, w, hwsome, hrest⟩
      · rw [hall i] at hp; exact Phase.noConfusion hp
      · have hiw : i = w := by
          by_contra hne
          rcases hrest i hne with h1 | h1 <;>
            (rw [h1] at hp; exact Phase.noConfusion hp)
        subst hiw
        refine Or.inr (Or.inr ⟨rfl, i, ?_, ?_⟩)
        · simp [Function.update]
        · intro j hj
          dsimp only
          rw [Function.update_noteq hj]
          exact hrest j hj
      · have hiw : i ≠ w := fun he => by
          rw [he] at hp; rw [hp] at hwsome; exact Phase.noConfusion hwsome
        rcases hrest i hiw with h1 | h1 <;>
          (rw [h1] at hp; exact Phase.noConfusion hp)

theorem raceInv_reach {k : Nat} {s : SysState k}
    (h : Reach (initState k) s) : RaceInv s := by
  induction h with
  | refl => exact raceInv_init k
  | tail _ hstep ih => exact raceInv_step hstep ih



theorem raceInv_reachFrom {k : Nat} {s s' : SysState k} (hs : RaceInv s)
    (h : Relation.ReflTransGen Step s s') : RaceInv s' := by
  induction h with
  | refl => exact hs
  | tail _ hstep ih => exact raceInv_step hstep ih

theorem raceInv_word_le {k : Nat} {s : SysState k} (h : RaceInv s) :
    s.word ≤ KOBJ_INITIALIZED := by
  rcases h with ⟨hw, _⟩ | ⟨hw, _⟩ | ⟨hw, _⟩ <;>
    simp [hw, KOBJ_UNINITIALIZED, KOBJ_INITING, KOBJ_INITIALIZED]

theorem step_word_mono {k : Nat} {s s' : SysState k} (h : Step s s')
    (hs : RaceInv s) : s.word ≤ s'.word := by
  cases h with
  | casOk i hp hw => rw [hw]; exact Nat.zero_le _
  | casFail i hp hw => exact Nat.le_refl _
  | storeDone i hp => exact raceInv_word_le hs

theorem reach_word_mono {k : Nat} {s s' : SysState k} (hs : RaceInv s)
    (h : Relation.ReflTransGen Step s s') : s.word ≤ s'.word := by
  induction h with
  | refl => exact Nat.le_refl _
  | tail hab hstep ih =>
      exact Nat.le_trans ih (step_word_mono hstep (raceInv_reachFrom hs hab))

/-- C1: in any interleaved execution of any number `k ≥ 1` of callers of
`init_once` on one zero-filled `StaticKernelObject` slot, once every
caller has returned, exactly one caller has returned `Some` (the one
whose compare-exchange found the word at `KOBJ_UNINITIALIZED`) and all
others have returned `None`. -/
theorem init_once_exactly_one_success {k : Nat} (hk : 0 < k)
    (s : SysState k) (hreach : Reach (initState k) s)
    (hfinal : ∀ i, s.phase i = Phase.doneSome ∨ s.phase i = Phase.doneNone) :
    ∃! i, s.phase i = Phase.doneSome := by
  rcases raceInv_reachFrom (raceInv_init k) hreach with
    ⟨_, hall⟩ | ⟨_, w, hwmid, _⟩ | ⟨_, w, hwsome, hrest⟩
  · rcases hfinal ⟨0, hk⟩ with h | h <;>
      (rw [hall ⟨0, hk⟩] at h; exact Phase.noConfusion h)
  · rcases hfinal w with h | h <;> (rw [hwmid] at h; exact Phase.noConfusion h)
  · refine ⟨w, hwsome, fun j hj => ?_⟩
    have hj' : s.phase j = Phase.doneSome := hj
    by_contra hne
    rcases hrest j hne with h | h <;>
      (rw [h] at hj'; exact Phase.noConfusion hj')

/-- Intermediate states of the two-caller execution witnessing C1:
caller 0 wins the compare-exchange, finishes, then caller 1 fails its
compare-exchange. -/
def c1s1 : SysState 2 :=
  ⟨KOBJ_INITING, Function.update (initState 2).phase 0 Phase.mid⟩

def c1s2 : SysState 2 :=
  ⟨KOBJ_INITIALIZED, Function.update c1s1.phase 0 Phase.doneSome⟩

def c1s3 : SysState 2 :=
  ⟨c1s2.word, Function.update c1s2.phase 1 Phase.doneNone⟩

/-- Witness for C1: the concrete two-caller execution ends with exactly
one `Some`. -/
theorem init_once_exactly_one_success_witness :
    ∃! i : Fin 2, c1s3.phase i = Phase.doneSome := by
  refine init_once_exactly_one_success (by decide) c1s3 ?_ ?_
  · refine Relation.ReflTransGen.head (Step.casOk 0 rfl rfl) ?_
    refine Relation.ReflTransGen.head (@Step.storeDone 2 c1s1 0 (by decide)) ?_
    exact Relation.ReflTransGen.single (@Step.casFail 2 c1s2 1 (by decide) (by decide))
  · decide

/-- C3: a call of `init_once` on a slot whose state word is
`KOBJ_UNINITIALIZED` writes `KOBJ_INITING`, runs `get_wrapped` on the
arguments exactly once, then writes `KOBJ_INITIALIZED`, and returns
`Some` of the `get_wrapped` result; the word ends at
`KOBJ_INITIALIZED`. -/
theorem init_once_uninitialized {I T : Type} (gw : I → T) (word : Nat)
    (args : I) (h : word = KOBJ_UNINITIALIZED) :
    init_once gw word args =
      (some (gw args), KOBJ_INITIALIZED,
        [KEvent.storeWord KOBJ_INITING, KEvent.runGetWrapped args,
         KEvent.storeWord KOBJ_INITIALIZED]) ∧
    List.countP KEvent.isGWRun (init_once gw word args).2.2 = 1 := by
  subst h
  exact ⟨rfl, rfl⟩

/-- Witness for C3 at a concrete construction routine and word. -/
theorem init_once_uninitialized_witness :
    (0 : Nat) = KOBJ_UNINITIALIZED ∧
    (init_once (fun _ : Unit => (42 : Nat)) 0 () =
      (some 42, KOBJ_INITIALIZED,
        [KEvent.storeWord KOBJ_INITING, KEvent.runGetWrapped (),
         KEvent.storeWord KOBJ_INITIALIZED]) ∧
     List.countP KEvent.isGWRun
       (init_once (fun _ : Unit => (42 : Nat)) 0 ()).2.2 = 1) :=
  ⟨rfl, init_once_uninitialized (fun _ : Unit => (42 : Nat)) 0 () rfl⟩

/-- C4: a call of `init_once` on a slot whose state word is not
`KOBJ_UNINITIALIZED` returns `None` at once, performs no write to the
word and no invocation of `get_wrapped` (empty effect list), and leaves
the word at its entry value. -/
theorem init_once_already_initialized {I T : Type} (gw : I → T)
    (word : Nat) (args : I) (h : word ≠ KOBJ_UNINITIALIZED) :
    init_once gw word args = (none, word, []) := by
  simp [init_once, compare_exchange, h]

/-- Witness for C4 at word `KOBJ_INITIALIZED`. -/
theorem init_once_already_initialized_witness :
    KOBJ_INITIALIZED ≠ KOBJ_UNINITIALIZED ∧
    init_once (fun _ : Unit => (42 : Nat)) KOBJ_INITIALIZED () =
      (none, KOBJ_INITIALIZED, []) :=
  ⟨by decide,
   init_once_already_initialized (fun _ : Unit => (42 : Nat))
     KOBJ_INITIALIZED () (by decide)⟩

/-- C7: the state word only moves forward: `KOBJ_UNINITIALIZED` is `0`,
a zero-filled slot (`StaticKernelObject::new`, `initState`) starts
there, and along any execution the word never decreases and never
exceeds `KOBJ_INITIALIZED`. -/
theorem kobj_state_monotone {k : Nat} {s s' : SysState k}
    (hreach : Reach (initState k) s) (hsteps : Reach s s') :
    KOBJ_UNINITIALIZED = 0 ∧ new_init_word = 0 ∧
    (initState k).word = KOBJ_UNINITIALIZED ∧
    s.word ≤ s'.word ∧ s'.word ≤ KOBJ_INITIALIZED := by
  have hs : RaceInv s := raceInv_reachFrom (raceInv_init k) hreach
  exact ⟨rfl, rfl, rfl, reach_word_mono hs hsteps,
    raceInv_word_le (raceInv_reachFrom hs hsteps)⟩

/-- Witness for C7 on the one-step execution of a single caller. -/
theorem kobj_state_monotone_witness :
    KOBJ_UNINITIALIZED = 0 ∧ new_init_word = 0 ∧
    (initState 1).word = KOBJ_UNINITIALIZED ∧
    (initState 1).word ≤ KOBJ_INITING ∧
    (KOBJ_INITING : Nat) ≤ KOBJ_INITIALIZED := by
  have h := @kobj_state_monotone 1 (initState 1)
    ⟨KOBJ_INITING, Function.update (initState 1).phase 0 Phase.mid⟩
    Relation.ReflTransGen.refl
    (Relation.ReflTransGen.single (Step.casOk 0 rfl rfl))
  exact h

/-- C10: every completed call of `init_once` either returns `None` and
leaves the state word exactly as it found it, or returns `Some` of the
`get_wrapped` result with the word at `KOBJ_INITIALIZED`; in
particular no call ends with the word newly at `KOBJ_INITING`. -/
theorem init_once_no_initing_at_return {I T : Type} (gw : I → T)
    (word : Nat) (args : I) :
    ((init_once gw word args).1 = none ∧
      (init_once gw word args).2.1 = word) ∨
    ((init_once gw word args).1 = some (gw args) ∧
      (init_once gw word args).2.1 = KOBJ_INITIALIZED) := by
  by_cases h : word = KOBJ_UNINITIALIZED
  · subst h
    right
    exact ⟨rfl, rfl⟩
  · left
    simp [init_once, compare_exchange, h]

end ZephyrObject

namespace Philosophers

/-- C5: philosopher `n < NUM_PHIL - 1` is assigned the fork pair
`(n, n + 1)`, and the last philosopher `NUM_PHIL - 1 = 5` is assigned
the reversed pair `(0, 5)`. -/
theorem phil_forks_assignment (n : Nat) (h : n < NUM_PHIL - 1) :
    philForks n = (n, n + 1) ∧
    philForks (NUM_PHIL - 1) = (0, NUM_PHIL - 1) ∧ philForks 5 = (0, 5) := by
  have hne : n ≠ NUM_PHIL - 1 := Nat.ne_of_lt h
  exact ⟨by simp [philForks, hne], by decide, by decide⟩

/-- Witness for C5 at philosopher 2. -/
theorem phil_forks_assignment_witness :
    2 < NUM_PHIL - 1 ∧
    (philForks 2 = (2, 3) ∧
     philForks (NUM_PHIL - 1) = (0, NUM_PHIL - 1) ∧ philForks 5 = (0, 5)) :=
  ⟨by decide, phil_forks_assignment 2 (by decide)⟩

/-- C9: for every philosopher index `n < NUM_PHIL` the computed pair is
strictly increasing and within range: `first < second ≤ NUM_PHIL - 1`,
so the two forks are distinct, in range for the six forks, and every
philosopher (the reversed last one included) takes its lower-indexed
fork first. -/
theorem phil_forks_in_range :
    ∀ n, n < NUM_PHIL →
      (philForks n).1 < (philForks n).2 ∧ (philForks n).2 ≤ NUM_PHIL - 1 := by
  decide

/-- Witness for C9 at philosopher 5 (the reversed pair). -/
theorem phil_forks_in_range_witness :
    5 < NUM_PHIL ∧
    ((philForks 5).1 < (philForks 5).2 ∧ (philForks 5).2 ≤ NUM_PHIL - 1) :=
  ⟨by decide, phil_forks_in_range 5 (by decide)⟩

/-- C6 counterexample: under the wrapping unsigned 64-bit semantics the
claim itself names, the delay computed for id `0`, period `2 ^ 63` and
uptime reading `100` is `0` — zero, below the period, and not a
positive multiple of it — because `(delay + 1) * period` wraps. -/
theorem get_random_delay_wraps_to_zero :
    get_random_delay_ms 0 (2 ^ 63) 100 = 0 ∧
    ¬ (2 ^ 63 ≤ get_random_delay_ms 0 (2 ^ 63) 100 ∧
       0 < get_random_delay_ms 0 (2 ^ 63) 100) := by
  constructor
  · decide
  · intro hcontra
    have h0 : get_random_delay_ms 0 (2 ^ 63) 100 = 0 := by decide
    rw [h0] at hcontra
    exact Nat.lt_irrefl 0 hcontra.2

/-- C6 (amended): for any id, any period `p ≥ 1` small enough that the
final multiply cannot wrap (`32 * p < 2 ^ 64`), and any uptime reading,
the computed millisecond delay lies in `[p, 32 * p]`, is a multiple of
`p`, and is positive. -/
theorem get_random_delay_bounds (id period : Nat) (uptime : Int)
    (_hid : id < NUM_PHIL) (hp : 1 ≤ period)
    (hbound : 32 * period < USIZE_MOD) :
    period ≤ get_random_delay_ms id period uptime ∧
    get_random_delay_ms id period uptime ≤ 32 * period ∧
    get_random_delay_ms id period uptime % period = 0 ∧
    0 < get_random_delay_ms id period uptime := by
  unfold get_random_delay_ms
  set tick : Nat := ((uptime : Int) % (USIZE_MOD : Int)).toNat with htick
  set delay : Nat := (tick / 100 * (id + 1)) % USIZE_MOD &&& 0x1f with hdelay
  have hd31 : delay ≤ 31 := Nat.and_le_right
  have hlt : (delay + 1) * period < USIZE_MOD :=
    Nat.lt_of_le_of_lt (Nat.mul_le_mul_right period (by omega)) hbound
  have hmod : (delay + 1) * period % USIZE_MOD = (delay + 1) * period :=
    Nat.mod_eq_of_lt hlt
  refine ⟨?_, ?_, ?_, ?_⟩
  · rw [hmod]
    exact Nat.le_mul_of_pos_left period (Nat.succ_pos delay)
  · rw [hmod]
    exact Nat.mul_le_mul_right period (by omega)
  · rw [hmod]
    exact Nat.mul_mod_left _ _
  · rw [hmod]
    exact Nat.mul_pos (Nat.succ_pos delay) hp

/-- Witness for the amended C6 at id 0, period 25 (the period the
sample passes), uptime 0. -/
theorem get_random_delay_bounds_witness :
    (0 < NUM_PHIL ∧ 1 ≤ 25 ∧ 32 * 25 < USIZE_MOD) ∧
    (25 ≤ get_random_delay_ms 0 25 0 ∧
     get_random_delay_ms 0 25 0 ≤ 32 * 25 ∧
     get_random_delay_ms 0 25 0 % 25 = 0 ∧
     0 < get_random_delay_ms 0 25 0) :=
  ⟨⟨by decide, by decide, by decide⟩,
   get_random_delay_bounds 0 25 0 (by decide) (by decide) (by decide)⟩

/-- C8: iteration `k + 1` of the `phil_thread` loop extends the trace by
exactly `take(first)`, `take(second)`, the eating sleep,
`release(second)`, `release(first)` (reverse of the acquire order), and
the thinking sleep — and the trace is defined for every `k`, growing by
six actions per iteration, so the loop never terminates. -/
theorem phil_loop_order (n : Nat) (ups : Nat → Int × Int) (k : Nat) :
    philActs n ups (k + 1) =
      philActs n ups k ++
        [PhilAction.take (philForks n).1,
         PhilAction.take (philForks n).2,
         PhilAction.sleepFor (get_random_delay_ms n 25 (ups k).1),
         PhilAction.release (philForks n).2,
         PhilAction.release (philForks n).1,
         PhilAction.sleepFor (get_random_delay_ms n 25 (ups k).2)] ∧
    (philActs n ups (k + 1)).length = 6 * (k + 1) := by
  constructor
  · rfl
  · induction k with
    | zero => rfl
    | succ j ih =>
        have hstep :
            philActs n ups (j + 2) =
              philActs n ups (j + 1) ++
                philLoopBody n (ups (j + 1)).1 (ups (j + 1)).2 := rfl
        rw [hstep, List.length_append, ih]
        rfl

end Philosophers

namespace Philosophers

theorem fork_lt : ∀ n : Fin NUM_PHIL, firstFork n < secondFork n := by
  decide

theorem tableInv_init : TableInv initTable := by
  intro f m
  simp [initTable, holdsFork]

theorem tableInv_step {s s' : TableState} (h : PStep s s')
    (hinv : TableInv s) : TableInv s' := by
  cases h with
  | takeFirst n hp hf =>
      intro f m
      dsimp only
      by_cases hmn : m = n
      · subst hmn
        rw [Function.update_same]
        by_cases hfA : f = firstFork m
        · subst hfA
          rw [Function.update_same]
          simp [holdsFork]
        · rw [Function.update_noteq hfA]
          have hold := hinv f m
          rw [hp] at hold
          simp [holdsFork] at hold ⊢
          simp [hold, hfA]
      · rw [Function.update_noteq hmn]
        by_cases hfA : f = firstFork n
        · subst hfA
          rw [Function.update_same]
          constructor
          · intro hsome
            exact absurd (Option.some.inj hsome).symm hmn
          · intro hholds
            have hcontra := (hinv _ m).2 hholds
            rw [hf] at hcontra
            exact Option.noConfusion hcontra
        · rw [Function.update_noteq hfA]
          exact hinv f m
  | takeSecond n hp hf =>
      intro f m
      dsimp only
      by_cases hmn : m = n
      · subst hmn
        rw [Function.update_same]
        by_cases hfB : f = secondFork m
        · subst hfB
          rw [Function.update_same]
          simp [holdsFork]
        · rw [Function.update_noteq hfB]
          have hold := hinv f m
          rw [hp] at hold
          simp [holdsFork] at hold ⊢
          rw [hold]
          constructor
          · exact Or.inl
          · rintro (h1 | h1)
            · exact h1
            · exact absurd h1 hfB
      · rw [Function.update_noteq hmn]
        by_cases hfB : f = secondFork n
        · subst hfB
          rw [Function.update_same]
          constructor
          · intro hsome
            exact absurd (Option.some.inj hsome).symm hmn
          · intro hholds
            have hcontra := (hinv _ m).2 hholds
            rw [hf] at hcontra
            exact Option.noConfusion hcontra
        · rw [Function.update_noteq hfB]
          exact hinv f m
  | putSecond n hp =>
      intro f m
      dsimp only
      by_cases hmn : m = n
      · subst hmn
        rw [Function.update_same]
        by_cases hfB : f = secondFork m
        · subst hfB
          rw [Function.update_same]
          simp [holdsFork]
          exact fun h1 => absurd h1.symm (Nat.ne_of_lt (fork_lt m))
        · rw [Function.update_noteq hfB]
          have hold := hinv f m
          rw [hp] at hold
          simp [holdsFork] at hold ⊢
          rw [hold]
          constructor
          · rintro (h1 | h1)
            · exact h1
            · exact absurd h1 hfB
          · exact Or.inl
      · rw [Function.update_noteq hmn]
        by_cases hfB : f = secondFork n
        · subst hfB
          rw [Function.update_same]
          constructor
          · intro hsome
            exact Option.noConfusion hsome
          · intro hholds
            have h1 := (hinv _ m).2 hholds
            have h2 := (hinv (secondFork n) n).2 (by rw [hp]; simp [holdsFork])
            rw [h1] at h2
            exact absurd (Option.some.inj h2) hmn
        · rw [Function.update_noteq hfB]
          exact hinv f m
  | putFirstDown n hp =>
      intro f m
      dsimp only
      by_cases hmn : m = n
      · subst hmn
        rw [Function.update_same]
        by_cases hfA : f = firstFork m
        · subst hfA
          rw [Function.update_same]
          simp [holdsFork]
        · rw [Function.update_noteq hfA]
          have hold := hinv f m
          rw [hp] at hold
          simp [holdsFork] at hold ⊢
          simp [hold, hfA]
      · rw [Function.update_noteq hmn]
        by_cases hfA : f = firstFork n
        · subst hfA
          rw [Function.update_same]
          constructor
          · intro hsome
            exact Option.noConfusion hsome
          · intro hholds
            have h1 := (hinv _ m).2 hholds
            have h2 := (hinv (firstFork n) n).2 (by rw [hp]; simp [holdsFork])
            rw [h1] at h2
            exact absurd (Option.some.inj h2) hmn
        · rw [Function.update_noteq hfA]
          exact hinv f m
  | wake n hp =>
      intro f m
      dsimp only
      by_cases hmn : m = n
      · subst hmn
        rw [Function.update_same]
        have hold := hinv f m
        rw [hp] at hold
        simp [holdsFork] at hold ⊢
        exact hold
      · rw [Function.update_noteq hmn]
        exact hinv f m

theorem tableInv_reachFrom {s s' : TableState} (hs : TableInv s)
    (h : PReach s s') : TableInv s' := by
  induction h with
  | refl => exact hs
  | tail _ hstep ih => exact tableInv_step hstep ih

theorem eaten_mono_step {s s' : TableState} (h : PStep s s')
    (n : Fin NUM_PHIL) : s.eaten n ≤ s'.eaten n := by
  cases h with
  | takeFirst m hp hf => exact Nat.le_refl _
  | takeSecond m hp hf => exact Nat.le_refl _
  | putSecond m hp => exact Nat.le_refl _
  | putFirstDown m hp =>
      dsimp only
      by_cases hnm : n = m
      · subst hnm
        rw [Function.update_same]
        exact Nat.le_succ _
      · rw [Function.update_noteq hnm]
  | wake m hp => exact Nat.le_refl _

theorem eaten_mono_reach {s s' : TableState} (h : PReach s s')
    (n : Fin NUM_PHIL) : s.eaten n ≤ s'.eaten n := by
  induction h with
  | refl => exact Nat.le_refl _
  | tail _ hstep ih => exact Nat.le_trans ih (eaten_mono_step hstep n)

theorem tableWeight_phase_update (s : TableState) (n : Fin NUM_PHIL)
    (ph : PPhase) (forks' : Nat → Option (Fin NUM_PHIL))
    (eaten' : Fin NUM_PHIL → Nat) :
    tableWeight ⟨forks', Function.update s.phase n ph, eaten'⟩
        + phaseWeight (s.phase n)
      = tableWeight s + phaseWeight ph := by
  unfold tableWeight
  dsimp only
  have hfun : (fun j => phaseWeight (Function.update s.phase n ph j))
      = Function.update (fun j => phaseWeight (s.phase j)) n (phaseWeight ph) := by
    funext j
    by_cases hj : j = n
    · subst hj
      rw [Function.update_same, Function.update_same]
    · rw [Function.update_noteq hj, Function.update_noteq hj]
  rw [hfun, Finset.sum_update_of_mem (Finset.mem_univ n),
    Finset.sum_eq_add_sum_diff_singleton (Finset.mem_univ n)
      (fun j => phaseWeight (s.phase j))]
  omega

theorem exists_takeSecond (s : TableState) (hinv : TableInv s)
    (hall : ∀ m, s.phase m = PPhase.hungry ∨ s.phase m = PPhase.thinking ∨
      s.phase m = PPhase.waitSecond)
    (q0 : Fin NUM_PHIL) (hq0 : s.phase q0 = PPhase.waitSecond) :
    ∃ q, s.phase q = PPhase.waitSecond ∧ s.forks (secondFork q) = none := by
  classical
  have hne : (Finset.univ.filter
      (fun m => s.phase m = PPhase.waitSecond)).Nonempty :=
    ⟨q0, by simp [hq0]⟩
  obtain ⟨q, hqH, hqmax⟩ := Finset.exists_max_image _ (fun m => firstFork m) hne
  have hq : s.phase q = PPhase.waitSecond := by
    simpa using hqH
  refine ⟨q, hq, ?_⟩
  cases hr : s.forks (secondFork q) with
  | none => rfl
  | some r =>
      exfalso
      have hrholds := (hinv (secondFork q) r).1 hr
      rcases hall r with h1 | h1 | h1 <;> rw [h1] at hrholds
      · exact hrholds
      · exact hrholds
      · have heq : secondFork q = firstFork r := hrholds
        have hle : firstFork r ≤ firstFork q := hqmax r (by simp [h1])
        have hlt : firstFork q < secondFork q := fork_lt q
        omega

end Philosophers

namespace Philosophers

theorem clear_table : ∀ (fuel : Nat) (s : TableState), TableInv s →
    tableWeight s ≤ fuel →
    ∃ s', PReach s s' ∧ TableInv s' ∧
      (∀ m, s'.phase m = PPhase.hungry ∨ s'.phase m = PPhase.thinking) ∧
      (∀ m, s.eaten m ≤ s'.eaten m) := by
  intro fuel
  induction fuel with
  | zero =>
      intro s hinv hW
      refine ⟨s, Relation.ReflTransGen.refl, hinv, ?_, fun m => Nat.le_refl _⟩
      intro m
      have hw0 : phaseWeight (s.phase m) = 0 := by
        have hsum : ∀ (g : Fin NUM_PHIL → Nat) (j : Fin NUM_PHIL),
            g j ≤ Finset.sum Finset.univ g := fun g j =>
          Finset.single_le_sum (fun i _ => Nat.zero_le _) (Finset.mem_univ j)
        have hle2 : phaseWeight (s.phase m) ≤ tableWeight s :=
          hsum (fun j => phaseWeight (s.phase j)) m
        omega
      cases hph : s.phase m with
      | hungry => exact Or.inl rfl
      | thinking => exact Or.inr rfl
      | waitSecond => rw [hph] at hw0; exact absurd hw0 (by decide)
      | eating => rw [hph] at hw0; exact absurd hw0 (by decide)
      | putFirst => rw [hph] at hw0; exact absurd hw0 (by decide)
  | succ fuel ih =>
      intro s hinv hW
      by_cases hquiet : ∀ m, s.phase m = PPhase.hungry ∨ s.phase m = PPhase.thinking
      · exact ⟨s, Relation.ReflTransGen.refl, hinv, hquiet, fun m => Nat.le_refl _⟩
      push_neg at hquiet
      obtain ⟨m0, hm0a, hm0b⟩ := hquiet
      by_cases heat : ∃ m, s.phase m = PPhase.eating
      · obtain ⟨m, hm⟩ := heat
        have hstep := @PStep.putSecond s m hm
        have hupd := tableWeight_phase_update s m PPhase.putFirst
          (Function.update s.forks (secondFork m) none) s.eaten
        rw [hm] at hupd
        have h2 : tableWeight ⟨Function.update s.forks (secondFork m) none,
            Function.update s.phase m PPhase.putFirst, s.eaten⟩ ≤ fuel := by
          simp [phaseWeight] at hupd
          omega
        obtain ⟨s', hr, hi, hq, he⟩ := ih _ (tableInv_step hstep hinv) h2
        refine ⟨s', Relation.ReflTransGen.head hstep hr, hi, hq, fun j => ?_⟩
        exact Nat.le_trans (eaten_mono_step hstep j) (he j)
      by_cases hpf : ∃ m, s.phase m = PPhase.putFirst
      · obtain ⟨m, hm⟩ := hpf
        have hstep := @PStep.putFirstDown s m hm
        have hupd := tableWeight_phase_update s m PPhase.thinking
          (Function.update s.forks (firstFork m) none)
          (Function.update s.eaten m (s.eaten m + 1))
        rw [hm] at hupd
        have h2 : tableWeight ⟨Function.update s.forks (firstFork m) none,
            Function.update s.phase m PPhase.thinking,
            Function.update s.eaten m (s.eaten m + 1)⟩ ≤ fuel := by
          simp [phaseWeight] at hupd
          omega
        obtain ⟨s', hr, hi, hq, he⟩ := ih _ (tableInv_step hstep hinv) h2
        refine ⟨s', Relation.ReflTransGen.head hstep hr, hi, hq, fun j => ?_⟩
        exact Nat.le_trans (eaten_mono_step hstep j) (he j)
      push_neg at heat hpf
      have hall : ∀ m, s.phase m = PPhase.hungry ∨ s.phase m = PPhase.thinking ∨
          s.phase m = PPhase.waitSecond := by
        intro m
        cases hph : s.phase m with
        | hungry => exact Or.inl rfl
        | thinking => exact Or.inr (Or.inl rfl)
        | waitSecond => exact Or.inr (Or.inr rfl)
        | eating => exact absurd hph (heat m)
        | putFirst => exact absurd hph (hpf m)
      have hm0w : s.phase m0 = PPhase.waitSecond := by
        rcases hall m0 with h1 | h1 | h1
        · exact absurd h1 hm0a
        · exact absurd h1 hm0b
        · exact h1
      obtain ⟨q, hq, hfree⟩ := exists_takeSecond s hinv hall m0 hm0w
      have hstep := @PStep.takeSecond s q hq hfree
      have hupd := tableWeight_phase_update s q PPhase.eating
        (Function.update s.forks (secondFork q) (some q)) s.eaten
      rw [hq] at hupd
      have h2 : tableWeight ⟨Function.update s.forks (secondFork q) (some q),
          Function.update s.phase q PPhase.eating, s.eaten⟩ ≤ fuel := by
        simp [phaseWeight] at hupd
        omega
      obtain ⟨s', hr, hi, hqq, he⟩ := ih _ (tableInv_step hstep hinv) h2
      refine ⟨s', Relation.ReflTransGen.head hstep hr, hi, hqq, fun j => ?_⟩
      exact Nat.le_trans (eaten_mono_step hstep j) (he j)

theorem cycle_from_hungry (s : TableState) (n : Fin NUM_PHIL)
    (hfree : ∀ f, s.forks f = none) (hn : s.phase n = PPhase.hungry) :
    ∃ s', PReach s s' ∧ s.eaten n < s'.eaten n := by
  have hBA : secondFork n ≠ firstFork n := Ne.symm (Nat.ne_of_lt (fork_lt n))
  refine ⟨_, Relation.ReflTransGen.head (PStep.takeFirst n hn (hfree _))
      (Relation.ReflTransGen.head (PStep.takeSecond n ?_ ?_)
        (Relation.ReflTransGen.head (PStep.putSecond n ?_)
          (Relation.ReflTransGen.single (PStep.putFirstDown n ?_)))), ?_⟩
  · simp
  · dsimp only
    rw [Function.update_noteq hBA]
    exact hfree _
  · simp
  · simp
  · simp

theorem cycle_from_quiet (s : TableState) (hinv : TableInv s)
    (hq : ∀ m, s.phase m = PPhase.hungry ∨ s.phase m = PPhase.thinking)
    (n : Fin NUM_PHIL) :
    ∃ s', PReach s s' ∧ s.eaten n < s'.eaten n := by
  have hfree : ∀ f, s.forks f = none := by
    intro f
    cases hf : s.forks f with
    | none => rfl
    | some m =>
        exfalso
        have hholds := (hinv f m).1 hf
        rcases hq m with h1 | h1 <;> rw [h1] at hholds <;>
          simp [holdsFork] at hholds
  rcases hq n with hn | hn
  · exact cycle_from_hungry s n hfree hn
  · obtain ⟨s', hr, hlt⟩ := cycle_from_hungry
      ⟨s.forks, Function.update s.phase n PPhase.hungry, s.eaten⟩ n hfree
      (by simp)
    exact ⟨s', Relation.ReflTransGen.head (PStep.wake n hn) hr, hlt⟩

/-- C2: with the last philosopher's fork pair reversed to `(0, 5)`, the
six-thread system has no permanent mutual wait: in every table state
reachable from the start, some thread can still act (no deadlock), and
every philosopher `n` can still go on to complete a further full
hungry/eat/think cycle — and hence, by iterating, arbitrarily many. -/
theorem philosophers_progress (s : TableState)
    (hreach : PReach initTable s) :
    (∃ t, PStep s t) ∧
    (∀ n, ∃ s', PReach s s' ∧ s.eaten n < s'.eaten n) := by
  have hinv : TableInv s := tableInv_reachFrom tableInv_init hreach
  have hprog : ∀ n, ∃ s', PReach s s' ∧ s.eaten n < s'.eaten n := by
    intro n
    obtain ⟨t, hr, hi, hq, he⟩ :=
      clear_table (tableWeight s) s hinv (Nat.le_refl _)
    obtain ⟨s', hr2, hlt⟩ := cycle_from_quiet t hi hq n
    exact ⟨s', Relation.ReflTransGen.trans hr hr2,
      Nat.lt_of_le_of_lt (he n) hlt⟩
  refine ⟨?_, hprog⟩
  obtain ⟨s', hr, hlt⟩ := hprog ⟨0, by decide⟩
  rcases hr.cases_head with heq | ⟨t, hstep, _⟩
  · rw [heq] at hlt
    exact absurd hlt (Nat.lt_irrefl _)
  · exact ⟨t, hstep⟩

/-- Witness for C2 at the initial table state. -/
theorem philosophers_progress_witness :
    (∃ t, PStep initTable t) ∧
    (∀ n, ∃ s', PReach initTable s' ∧ initTable.eaten n < s'.eaten n) :=
  philosophers_progress initTable Relation.ReflTransGen.refl

end Philosophers
